import Mathlib

/-!
Verification development for the document-clustering core of xapian
(src/xapian-core/cluster/cluster.cc and the declarations in cluster.h).

Shallow embedding conventions:
* C++ `std::string` terms become `String`; equality is by bytes, as in the source.
* `std::tr1::unordered_map<string, T>` is modelled as an association list with
  first-match lookup; `m[key] = v` keeps the position of an existing key and
  appends a fresh key at the end.  Hash-iteration order of the C++ map is not
  observable through the operations the claims mention except via
  `Centroid::divide` and `recalc_magnitude`, which are order-insensitive.
* `double` weights become real numbers.  The one place where IEEE-754
  non-finite values matter (`Point::initialize` divides by a possibly zero
  term frequency and takes `log`) is modelled with the `DReal` type, reals
  extended with `posInf`, `negInf` and `nan`, with the IEEE semantics of the
  operations the source applies.
* Throwing C++ methods return `Except`.
-/

/-- Terms are opaque byte strings. -/
abbrev Term := String

/-- The `Wdf` pair stored in a point termlist: a term together with its
within-document frequency (`points.h` struct `Wdf`). -/
structure Wdf where
  term : Term
  wdf : Nat
deriving DecidableEq, Repr

/-- A document handle: an id plus the finite `(term, wdf)` sequence its
termlist iterator yields (in iteration order). -/
structure Document where
  docid : Nat
  terms : List Wdf
deriving DecidableEq, Repr

/-- First-match lookup in an association list (models `unordered_map::find`). -/
def mapFind {α : Type} : List (Term × α) → Term → Option α
  | [], _ => none
  | kv :: rest, t => if kv.1 = t then some kv.2 else mapFind rest t

/-- `m[key] = v`: overwrite the first binding of `key`, or append a fresh
binding at the end if absent. -/
def mapInsert {α : Type} : List (Term × α) → Term → α → List (Term × α)
  | [], t, v => [(t, v)]
  | kv :: rest, t, v => if kv.1 = t then (t, v) :: rest else kv :: mapInsert rest t v

/-- `it->second += v` on the first binding of `key` (no-op when absent; the
source only calls it after a successful `find`). -/
def mapAdd {α : Type} [Add α] : List (Term × α) → Term → α → List (Term × α)
  | [], _, _ => []
  | kv :: rest, t, v => if kv.1 = t then (kv.1, kv.2 + v) :: rest else kv :: mapAdd rest t v

@[simp] theorem mapFind_nil {α : Type} (t : Term) : mapFind ([] : List (Term × α)) t = none := rfl

@[simp] theorem mapFind_cons {α : Type} (kv : Term × α) (rest : List (Term × α)) (t : Term) :
    mapFind (kv :: rest) t = if kv.1 = t then some kv.2 else mapFind rest t := rfl

theorem mapFind_mapInsert_self {α : Type} (m : List (Term × α)) (t : Term) (v : α) :
    mapFind (mapInsert m t v) t = some v := by
  induction m with
  | nil => simp [mapInsert]
  | cons kv rest ih =>
      by_cases h : kv.1 = t
      · simp [mapInsert, h]
      · simp [mapInsert, h, ih]

theorem mapFind_mapInsert_ne {α : Type} (m : List (Term × α)) (t u : Term) (v : α)
    (h : u ≠ t) : mapFind (mapInsert m t v) u = mapFind m u := by
  have ht : t ≠ u := Ne.symm h
  induction m with
  | nil => simp [mapInsert, ht]
  | cons kv rest ih =>
      by_cases hk : kv.1 = t
      · subst hk
        simp [mapInsert, ht, h]
      · simp [mapInsert, hk, ih]

theorem mapFind_mapAdd_self {α : Type} [Add α] (m : List (Term × α)) (t : Term) (v w : α)
    (h : mapFind m t = some w) : mapFind (mapAdd m t v) t = some (w + v) := by
  induction m with
  | nil => simp at h
  | cons kv rest ih =>
      by_cases hk : kv.1 = t
      · simp [hk] at h
        simp [mapAdd, hk, h]
      · simp [hk] at h
        simp [mapAdd, hk, ih h]

theorem mapFind_mapAdd_ne {α : Type} [Add α] (m : List (Term × α)) (t u : Term) (v : α)
    (h : u ≠ t) : mapFind (mapAdd m t v) u = mapFind m u := by
  have ht : t ≠ u := Ne.symm h
  induction m with
  | nil => simp [mapAdd]
  | cons kv rest ih =>
      by_cases hk : kv.1 = t
      · subst hk
        simp [mapAdd, ht, h]
      · simp [mapAdd, hk, ih]

theorem mapFind_isSome_of_insert {α : Type} (m : List (Term × α)) (t u : Term) (v : α) :
    (mapFind (mapInsert m t v) u).isSome = (u = t || (mapFind m u).isSome) := by
  by_cases h : u = t
  · subst h
    simp [mapFind_mapInsert_self]
  · simp [mapFind_mapInsert_ne m t u v h, h]

theorem mapFind_mem {α : Type} (m : List (Term × α)) (t : Term) (v : α)
    (h : mapFind m t = some v) : ∃ kv ∈ m, kv.2 = v := by
  induction m with
  | nil => simp at h
  | cons kv rest ih =>
      by_cases hk : kv.1 = t
      · simp [hk] at h
        exact ⟨kv, List.mem_cons_self _ _, h⟩
      · simp [hk] at h
        obtain ⟨kw, hmem, hv⟩ := ih h
        exact ⟨kw, List.mem_cons_of_mem _ hmem, hv⟩

theorem mapFind_eq_none_of_not_mem {α : Type} (m : List (Term × α)) (t : Term)
    (h : ∀ kv ∈ m, kv.1 ≠ t) : mapFind m t = none := by
  induction m with
  | nil => rfl
  | cons kv rest ih =>
      have h1 := h kv (List.mem_cons_self _ _)
      simp [h1, ih fun kw hm => h kw (List.mem_cons_of_mem _ hm)]

theorem mapFind_map_value {α β : Type} (f : α → β) (m : List (Term × α)) (t : Term) :
    mapFind (m.map (fun kv => (kv.1, f kv.2))) t = (mapFind m t).map f := by
  induction m with
  | nil => rfl
  | cons kv rest ih =>
      by_cases h : kv.1 = t
      · simp [h]
      · simp [h, ih]

/-! ## PointType (cluster.h / cluster.cc)

`PointType` holds the sparse term-to-weight map `values`, the cached
`magnitude`, and the termlist used for iteration.  The weight type is a
parameter so that the same container serves both the real-weight operations
(`set_value`, `add_value`, `divide`, ...) and the IEEE-extended weights
produced by `Point::initialize`. -/

structure PointType (W : Type) where
  values : List (Term × W)
  termlist : List Wdf
  magnitude : W

/-- `PointType::get_value`: the stored weight, or 0.0 when absent
(cluster.cc lines 301-310). -/
def PointType.get_value {W : Type} [Zero W] (p : PointType W) (t : Term) : W :=
  match mapFind p.values t with
  | some v => v
  | none => 0

/-- `PointType::contains` (cluster.cc lines 290-299). -/
def PointType.contains {W : Type} (p : PointType W) (t : Term) : Bool :=
  (mapFind p.values t).isSome

/-- `PointType::get_magnitude`: returns the cached field unchanged
(cluster.cc lines 335-339). -/
def PointType.get_magnitude {W : Type} (p : PointType W) : W :=
  p.magnitude

/-- `PointType::set_value`: `values[term] = value` and nothing else
(cluster.cc lines 354-358). -/
def PointType.set_value {W : Type} (p : PointType W) (t : Term) (v : W) : PointType W :=
  { p with values := mapInsert p.values t v }

/-- `PointType::add_value`: add to an existing binding, otherwise push
`(term, 1)` on the termlist and insert the binding (cluster.cc lines 341-352). -/
def PointType.add_value {W : Type} [Add W] (p : PointType W) (t : Term) (v : W) : PointType W :=
  if p.contains t then { p with values := mapAdd p.values t v }
  else { p with termlist := p.termlist ++ [⟨t, 1⟩], values := mapInsert p.values t v }

/-- `PointType::termlist_size` (cluster.cc lines 360-363). -/
def PointType.termlist_size {W : Type} (p : PointType W) : Nat :=
  p.termlist.length

/-- `Centroid::divide`: divide every stored weight by the integer `num`;
`termlist` and `magnitude` are not touched (cluster.cc lines 225-231). -/
noncomputable def PointType.divide (p : PointType ℝ) (num : ℤ) : PointType ℝ :=
  { p with values := p.values.map (fun kv => (kv.1, kv.2 / (num : ℝ))) }

/-- `Centroid::clear`: clears `values` and `termlist`; the `magnitude` field
is left as it was (cluster.cc lines 233-238). -/
def PointType.clear {W : Type} (p : PointType W) : PointType W :=
  { p with values := [], termlist := [] }

/-- `Centroid::recalc_magnitude`: `magnitude = 0; for each binding
magnitude += w*w` (cluster.cc lines 240-246). -/
def PointType.recalc_magnitude (p : PointType ℝ) : PointType ℝ :=
  { p with magnitude := p.values.foldl (fun acc kv => acc + kv.2 * kv.2) 0 }

/-- The sum of `get_value(t)^2` over the stored terms `t` (the quantity the
magnitude invariant of the specification talks about). -/
noncomputable def PointType.storedSquareSum (p : PointType ℝ) : ℝ :=
  (p.values.map (fun kv => p.get_value kv.1 * p.get_value kv.1)).sum

@[simp] theorem PointType.get_magnitude_eq {W : Type} (p : PointType W) :
    p.get_magnitude = p.magnitude := rfl

theorem PointType.add_value_get_value (p : PointType ℝ) (t u : Term) (v : ℝ) :
    (p.add_value t v).get_value u = p.get_value u + (if u = t then v else 0) := by
  by_cases hu : u = t
  · subst hu
    rcases hfind : mapFind p.values u with _ | w
    · have hc : ¬ (p.contains u = true) := by
        unfold PointType.contains
        rw [hfind]
        simp
      unfold PointType.add_value
      rw [if_neg hc]
      unfold PointType.get_value
      simp only
      rw [mapFind_mapInsert_self, hfind]
      simp
    · have hc : p.contains u = true := by
        unfold PointType.contains
        rw [hfind]
        rfl
      unfold PointType.add_value
      rw [if_pos hc]
      unfold PointType.get_value
      simp only
      rw [mapFind_mapAdd_self p.values u v w hfind, hfind]
      simp
  · unfold PointType.add_value
    by_cases hc : p.contains t = true
    · rw [if_pos hc]
      unfold PointType.get_value
      simp only
      rw [mapFind_mapAdd_ne p.values t u v hu]
      simp [hu]
    · rw [if_neg hc]
      unfold PointType.get_value
      simp only
      rw [mapFind_mapInsert_ne p.values t u v hu]
      simp [hu]

@[simp] theorem PointType.add_value_magnitude {W : Type} [Add W]
    (p : PointType W) (t : Term) (v : W) :
    (p.add_value t v).magnitude = p.magnitude := by
  unfold PointType.add_value
  by_cases hc : p.contains t <;> simp [hc]

@[simp] theorem PointType.set_value_magnitude {W : Type}
    (p : PointType W) (t : Term) (v : W) :
    (p.set_value t v).magnitude = p.magnitude := rfl

/-! ## TermListGroup (cluster.cc lines 106-141) -/

/-- `TermListGroup`: the term-to-document-frequency map plus the number of
documents added. -/
structure TermListGroup where
  termfreq : List (Term × Nat)
  docs_num : Nat
deriving DecidableEq, Repr

/-- `TermListGroup::get_termfreq` uses `termfreq[tname]`, which
default-inserts 0 for an absent key; the value observed by the caller is
therefore the stored frequency, or 0 when the term was never seen
(cluster.cc lines 137-141). -/
def TermListGroup.get_termfreq (tlg : TermListGroup) (t : Term) : Nat :=
  match mapFind tlg.termfreq t with
  | some n => n
  | none => 0

/-- `TermListGroup::get_doccount` (cluster.cc lines 131-135). -/
def TermListGroup.get_doccount (tlg : TermListGroup) : Nat :=
  tlg.docs_num

/-- One step of `TermListGroup::add_document`: `termfreq[t] = 1` when the
term is new, otherwise `+= 1` (cluster.cc lines 113-120). -/
def bumpTermfreq : List (Term × Nat) → Term → List (Term × Nat)
  | [], t => [(t, 1)]
  | kv :: rest, t => if kv.1 = t then (kv.1, kv.2 + 1) :: rest else kv :: bumpTermfreq rest t

/-- `TermListGroup::add_document` (cluster.cc lines 106-121). -/
def TermListGroup.add_document (tlg : TermListGroup) (d : Document) : TermListGroup :=
  { tlg with termfreq := d.terms.foldl (fun m e => bumpTermfreq m e.term) tlg.termfreq }

/-- `TermListGroup::add_documents`: add every document of the source, then
set `docs_num` to the source size (cluster.cc lines 123-129). -/
def TermListGroup.add_documents (tlg : TermListGroup) (docs : List Document) : TermListGroup :=
  { docs.foldl TermListGroup.add_document tlg with docs_num := docs.length }

/-- A TermListGroup built from scratch over a document list (the way both
clusterers use it). -/
def TermListGroup.ofDocs (docs : List Document) : TermListGroup :=
  TermListGroup.add_documents ⟨[], 0⟩ docs

/-! ## IEEE-extended weights for Point::initialize

`Point::initialize` computes `idf = log(size/termfreq)` without guarding
`termfreq == 0`, so with IEEE-754 doubles the division can produce an
infinity and the logarithm propagates it.  `DReal` is the set of double
values relevant here: finite reals, the two infinities and NaN.  The
operations below follow the IEEE-754 semantics of `/`, `log`, `*` and `+`
on those values (finite overflow to infinity is not modelled; the claims
never exercise it). -/

inductive DReal where
  | fin : ℝ → DReal
  | posInf : DReal
  | negInf : DReal
  | nan : DReal

instance : Zero DReal := ⟨DReal.fin 0⟩

/-- IEEE addition restricted to the values above. -/
noncomputable def DReal.add : DReal → DReal → DReal
  | nan, _ => nan
  | _, nan => nan
  | fin x, fin y => fin (x + y)
  | fin _, posInf => posInf
  | fin _, negInf => negInf
  | posInf, fin _ => posInf
  | negInf, fin _ => negInf
  | posInf, posInf => posInf
  | negInf, negInf => negInf
  | posInf, negInf => nan
  | negInf, posInf => nan

/-- IEEE multiplication restricted to the values above. -/
noncomputable def DReal.mul : DReal → DReal → DReal
  | nan, _ => nan
  | _, nan => nan
  | fin x, fin y => fin (x * y)
  | fin x, posInf => if 0 < x then posInf else if x < 0 then negInf else nan
  | fin x, negInf => if 0 < x then negInf else if x < 0 then posInf else nan
  | posInf, fin y => if 0 < y then posInf else if y < 0 then negInf else nan
  | negInf, fin y => if 0 < y then negInf else if y < 0 then posInf else nan
  | posInf, posInf => posInf
  | posInf, negInf => negInf
  | negInf, posInf => negInf
  | negInf, negInf => posInf

/-- IEEE division restricted to the values above (the zero divisor is the
positive zero that a cast from an unsigned count produces). -/
noncomputable def DReal.div : DReal → DReal → DReal
  | nan, _ => nan
  | _, nan => nan
  | fin x, fin y =>
      if y = 0 then (if 0 < x then posInf else if x < 0 then negInf else nan)
      else fin (x / y)
  | fin _, posInf => fin 0
  | fin _, negInf => fin 0
  | posInf, fin y => if y < 0 then negInf else posInf
  | negInf, fin y => if y < 0 then posInf else negInf
  | posInf, posInf => nan
  | posInf, negInf => nan
  | negInf, posInf => nan
  | negInf, negInf => nan

/-- IEEE natural logarithm restricted to the values above:
`log(+inf) = +inf`, `log(+0) = -inf`, `log` of a negative value is NaN. -/
noncomputable def DReal.log : DReal → DReal
  | nan => nan
  | posInf => posInf
  | negInf => nan
  | fin x => if 0 < x then fin (Real.log x) else if x = 0 then negInf else nan

/-- Finiteness of a double value. -/
def DReal.isFinite : DReal → Bool
  | fin _ => true
  | _ => false

@[simp] theorem DReal.add_fin_fin (x y : ℝ) :
    DReal.add (DReal.fin x) (DReal.fin y) = DReal.fin (x + y) := rfl

@[simp] theorem DReal.mul_fin_fin (x y : ℝ) :
    DReal.mul (DReal.fin x) (DReal.fin y) = DReal.fin (x * y) := rfl

@[simp] theorem DReal.add_fin_posInf (x : ℝ) :
    DReal.add (DReal.fin x) DReal.posInf = DReal.posInf := rfl

@[simp] theorem DReal.mul_posInf_posInf :
    DReal.mul DReal.posInf DReal.posInf = DReal.posInf := rfl

theorem DReal.mul_fin_posInf_of_pos {x : ℝ} (hx : 0 < x) :
    DReal.mul (DReal.fin x) DReal.posInf = DReal.posInf := by
  simp only [DReal.mul]
  rw [if_pos hx]

theorem DReal.div_fin_zero_of_pos {x : ℝ} (hx : 0 < x) :
    DReal.div (DReal.fin x) (DReal.fin 0) = DReal.posInf := by
  simp only [DReal.div, if_true]
  rw [if_pos hx]

theorem DReal.div_fin_fin_of_ne {x y : ℝ} (hy : y ≠ 0) :
    DReal.div (DReal.fin x) (DReal.fin y) = DReal.fin (x / y) := by
  simp only [DReal.div]
  rw [if_neg hy]

theorem DReal.log_fin_of_pos {x : ℝ} (hx : 0 < x) :
    DReal.log (DReal.fin x) = DReal.fin (Real.log x) := by
  simp only [DReal.log]
  rw [if_pos hx]

@[simp] theorem DReal.log_posInf : DReal.log DReal.posInf = DReal.posInf := rfl

@[simp] theorem DReal.isFinite_fin (x : ℝ) : (DReal.fin x).isFinite = true := rfl

@[simp] theorem DReal.isFinite_posInf : DReal.posInf.isFinite = false := rfl

/-! ## Point and Point::initialize (cluster.cc lines 312-333) -/

/-- A `Point` is a `PointType` plus the document it represents. -/
structure Point (W : Type) where
  pt : PointType W
  doc : Document

/-- A freshly constructed `Point`: the `PointType` constructor zeroes the
magnitude and the containers start empty. -/
def freshPoint : Point DReal :=
  ⟨⟨[], [], DReal.fin 0⟩, ⟨0, []⟩⟩

/-- The loop body of `Point::initialize` for one `(term, wdf)` entry of the
document termlist, with `size = tlg.get_doccount()` fixed outside the loop:
clamp the wdf to at least 1, push `(term, wdf)` on the termlist, compute
`tf = 1 + log(wdf)`, `idf = log(size/termfreq)`, `wt = tf*idf`, store `wt`
in the map and add `wt*wt` to the magnitude. -/
noncomputable def initStep (tlg : TermListGroup) (q : Point DReal) (e : Wdf) : Point DReal :=
  let wdf : Nat := if e.wdf < 1 then 1 else e.wdf
  let tf : DReal := DReal.add (DReal.fin 1) (DReal.log (DReal.fin (wdf : ℝ)))
  let termfreq : ℝ := (tlg.get_termfreq e.term : ℝ)
  let idf : DReal := DReal.log (DReal.div (DReal.fin (tlg.get_doccount : ℝ)) (DReal.fin termfreq))
  let wt : DReal := DReal.mul tf idf
  { q with
      pt := { values := mapInsert q.pt.values e.term wt,
              termlist := q.pt.termlist ++ [⟨e.term, wdf⟩],
              magnitude := DReal.add q.pt.magnitude (DReal.mul wt wt) } }

/-- `Point::initialize(tlg, doc)`: set the document member and run the loop
above over the document termlist (cluster.cc lines 312-333). -/
noncomputable def Point.initializeDoc (tlg : TermListGroup) (doc_ : Document) (p : Point DReal) :
    Point DReal :=
  doc_.terms.foldl (initStep tlg) { p with doc := doc_ }

/-- The TF-IDF weight the specification prescribes for an entry, as a real
number: `(1 + ln(max(wdf,1))) * ln(N / termfreq(term))`. -/
noncomputable def specWeight (tlg : TermListGroup) (e : Wdf) : ℝ :=
  (1 + Real.log (max e.wdf 1 : Nat)) * Real.log ((tlg.get_doccount : ℝ) / (tlg.get_termfreq e.term : ℝ))

/-- When the document frequency is at least 1 and so is the document count,
the per-entry weight computed by the loop is the finite specification
weight. -/
theorem initStep_weight_fin (tlg : TermListGroup) (e : Wdf)
    (hN : 1 ≤ tlg.get_doccount) (hdf : 1 ≤ tlg.get_termfreq e.term) :
    DReal.mul (DReal.add (DReal.fin 1) (DReal.log (DReal.fin ((if e.wdf < 1 then 1 else e.wdf : Nat) : ℝ))))
        (DReal.log (DReal.div (DReal.fin (tlg.get_doccount : ℝ)) (DReal.fin (tlg.get_termfreq e.term : ℝ))))
      = DReal.fin (specWeight tlg e) := by
  have hclamp : (if e.wdf < 1 then 1 else e.wdf : Nat) = max e.wdf 1 := by
    rcases Nat.eq_zero_or_pos e.wdf with h | h
    · simp [h]
    · have h1 : ¬ e.wdf < 1 := by omega
      have h2 : max e.wdf 1 = e.wdf := by omega
      simp [h1, h2]
  have hwpos : (0 : ℝ) < ((max e.wdf 1 : Nat) : ℝ) := by
    have : 1 ≤ max e.wdf 1 := le_max_right _ _
    exact_mod_cast Nat.lt_of_lt_of_le Nat.zero_lt_one this
  have hdfpos : (0 : ℝ) < (tlg.get_termfreq e.term : ℝ) := by exact_mod_cast hdf
  have hNpos : (0 : ℝ) < (tlg.get_doccount : ℝ) := by exact_mod_cast hN
  have hratio : (0 : ℝ) < (tlg.get_doccount : ℝ) / (tlg.get_termfreq e.term : ℝ) :=
    div_pos hNpos hdfpos
  rw [hclamp, DReal.log_fin_of_pos hwpos, DReal.add_fin_fin,
      DReal.div_fin_fin_of_ne (ne_of_gt hdfpos), DReal.log_fin_of_pos hratio,
      DReal.mul_fin_fin, specWeight]

/-- The loop never touches the document member. -/
theorem initFold_doc (tlg : TermListGroup) (terms : List Wdf) (q : Point DReal) :
    (terms.foldl (initStep tlg) q).doc = q.doc := by
  induction terms generalizing q with
  | nil => rfl
  | cons e rest ih => rw [List.foldl_cons, ih]; rfl

/-- The termlist after the loop: the old termlist with one `(term, clamped
wdf)` entry appended per document entry, in order. -/
theorem initFold_termlist (tlg : TermListGroup) (terms : List Wdf) (q : Point DReal) :
    (terms.foldl (initStep tlg) q).pt.termlist
      = q.pt.termlist ++ terms.map (fun e => ⟨e.term, if e.wdf < 1 then 1 else e.wdf⟩) := by
  induction terms generalizing q with
  | nil => simp
  | cons e rest ih =>
      rw [List.foldl_cons, ih]
      simp [initStep]

/-- The magnitude after the loop, when every entry has a positive document
frequency and the document count is positive: the starting magnitude plus
the sum of squared specification weights. -/
theorem initFold_magnitude (tlg : TermListGroup) (terms : List Wdf) (q : Point DReal) (m : ℝ)
    (hm : q.pt.magnitude = DReal.fin m)
    (hN : 1 ≤ tlg.get_doccount)
    (hdf : ∀ e ∈ terms, 1 ≤ tlg.get_termfreq e.term) :
    (terms.foldl (initStep tlg) q).pt.magnitude
      = DReal.fin (m + (terms.map (fun e => specWeight tlg e * specWeight tlg e)).sum) := by
  induction terms generalizing q m with
  | nil => simpa using hm
  | cons e rest ih =>
      rw [List.foldl_cons]
      have hstep : (initStep tlg q e).pt.magnitude
          = DReal.fin (m + specWeight tlg e * specWeight tlg e) := by
        unfold initStep
        simp only
        rw [initStep_weight_fin tlg e hN (hdf e (List.mem_cons_self _ _)), hm,
            DReal.mul_fin_fin, DReal.add_fin_fin]
      rw [ih (initStep tlg q e) (m + specWeight tlg e * specWeight tlg e) hstep
            (fun x hx => hdf x (List.mem_cons_of_mem _ hx))]
      simp [add_assoc]

/-- Keys not processed by the loop keep their binding. -/
theorem initFold_values_untouched (tlg : TermListGroup) (terms : List Wdf) (q : Point DReal)
    (t : Term) (h : ∀ e ∈ terms, e.term ≠ t) :
    mapFind (terms.foldl (initStep tlg) q).pt.values t = mapFind q.pt.values t := by
  induction terms generalizing q with
  | nil => rfl
  | cons e rest ih =>
      rw [List.foldl_cons, ih _ (fun x hx => h x (List.mem_cons_of_mem _ hx))]
      unfold initStep
      simp only
      exact mapFind_mapInsert_ne _ _ _ _ (Ne.symm (h e (List.mem_cons_self _ _)))

/-- The weight stored for each entry of a duplicate-free document: exactly
the finite specification weight, provided every frequency is positive. -/
theorem initFold_values (tlg : TermListGroup) (terms : List Wdf) (q : Point DReal)
    (hnd : (terms.map Wdf.term).Nodup)
    (hN : 1 ≤ tlg.get_doccount)
    (hdf : ∀ e ∈ terms, 1 ≤ tlg.get_termfreq e.term) :
    ∀ e ∈ terms, mapFind (terms.foldl (initStep tlg) q).pt.values e.term
      = some (DReal.fin (specWeight tlg e)) := by
  induction terms generalizing q with
  | nil => intro e he; simp at he
  | cons d rest ih =>
      intro e he
      rw [List.map_cons, List.nodup_cons] at hnd
      rcases List.mem_cons.mp he with he | he
      · subst he
        rw [List.foldl_cons]
        have hnotin : ∀ x ∈ rest, x.term ≠ e.term := by
          intro x hx hxe
          exact hnd.1 (hxe ▸ List.mem_map_of_mem Wdf.term hx)
        rw [initFold_values_untouched tlg rest _ e.term hnotin]
        unfold initStep
        simp only
        rw [mapFind_mapInsert_self,
            initStep_weight_fin tlg e hN (hdf e (List.mem_cons_self _ _))]
      · rw [List.foldl_cons]
        exact ih (initStep tlg q d) hnd.2 (fun x hx => hdf x (List.mem_cons_of_mem _ hx)) e he

/-! ## Cluster and ClusterSet (cluster.cc lines 143-176, 391-485) -/

/-- A `Cluster`: one centroid plus the ordered list of assigned points. -/
structure Cluster (W : Type) where
  centroid : PointType W
  cluster_docs : List (Point W)

/-- `Cluster::size` (cluster.cc lines 452-456). -/
def Cluster.size {W : Type} (c : Cluster W) : Nat :=
  c.cluster_docs.length

/-- `Cluster::add_cluster`: append a point (cluster.cc lines 458-462). -/
def Cluster.add_cluster {W : Type} (c : Cluster W) (x : Point W) : Cluster W :=
  { c with cluster_docs := c.cluster_docs ++ [x] }

/-- `Cluster::clear`: empty the point list; the centroid is untouched
(cluster.cc lines 465-469). -/
def Cluster.clear {W : Type} (c : Cluster W) : Cluster W :=
  { c with cluster_docs := [] }

/-- `Cluster::recalculate` (cluster.cc lines 471-485): clear the centroid,
`add_value(term, point value)` for every termlist entry of every point,
divide by the cluster size, then recompute the magnitude. -/
noncomputable def Cluster.recalculate (c : Cluster ℝ) : Cluster ℝ :=
  let cent0 := c.centroid.clear
  let cent1 := c.cluster_docs.foldl
    (fun cent p => p.pt.termlist.foldl
      (fun cent2 w => cent2.add_value w.term (p.pt.get_value w.term)) cent) cent0
  { c with centroid := (cent1.divide (c.size : ℤ)).recalc_magnitude }

/-- The errors thrown by the cluster containers. -/
inductive ClusterError where
  | rangeError : ClusterError
deriving DecidableEq, Repr

/-- A `ClusterSet`: the ordered list of clusters. -/
structure ClusterSet (W : Type) where
  clusters : List (Cluster W)

/-- `ClusterSet::size` (cluster.cc lines 143-147). -/
def ClusterSet.size {W : Type} (cs : ClusterSet W) : Nat :=
  cs.clusters.length

/-- `ClusterSet::get_cluster`: throws `RangeError` when `cid >= size`,
otherwise returns a copy of the cluster at index `cid`; the set itself is
not modified (cluster.cc lines 149-165). -/
def ClusterSet.get_cluster {W : Type} (cs : ClusterSet W) (cid : Nat) :
    Except ClusterError (Cluster W) :=
  if h : cs.clusters.length ≤ cid then Except.error ClusterError.rangeError
  else Except.ok (cs.clusters.get ⟨cid, Nat.lt_of_not_le h⟩)

/-- `ClusterSet::cluster_size`: same bound check, then the size of the
cluster at index `cid` (cluster.cc lines 149-156). -/
def ClusterSet.cluster_size {W : Type} (cs : ClusterSet W) (cid : Nat) :
    Except ClusterError Nat :=
  if h : cs.clusters.length ≤ cid then Except.error ClusterError.rangeError
  else Except.ok (cs.clusters.get ⟨cid, Nat.lt_of_not_le h⟩).size

/-- `ClusterSet::add_cluster` (cluster.cc lines 167-171). -/
def ClusterSet.add_cluster {W : Type} (cs : ClusterSet W) (c : Cluster W) : ClusterSet W :=
  { clusters := cs.clusters ++ [c] }

/-- In-place update of the i-th list element (used for `clusters[i]`;
the C++ index is in range whenever the model exercises it). -/
def listModify {β : Type} : List β → Nat → (β → β) → List β
  | [], _, _ => []
  | b :: rest, 0, f => f b :: rest
  | b :: rest, n + 1, f => b :: listModify rest n f

/-- `ClusterSet::add_to_cluster`: `clusters[i].add_cluster(x)`
(cluster.cc lines 391-396). -/
def ClusterSet.add_to_cluster {W : Type} (cs : ClusterSet W) (x : Point W) (i : Nat) :
    ClusterSet W :=
  { clusters := listModify cs.clusters i (fun c => c.add_cluster x) }

/-- `ClusterSet::clear_clusters`: `Cluster::clear` on every cluster
(cluster.cc lines 398-404). -/
def ClusterSet.clear_clusters {W : Type} (cs : ClusterSet W) : ClusterSet W :=
  { clusters := cs.clusters.map Cluster.clear }

@[simp] theorem listModify_length {β : Type} (l : List β) (i : Nat) (f : β → β) :
    (listModify l i f).length = l.length := by
  induction l generalizing i with
  | nil => rfl
  | cons b rest ih =>
      cases i with
      | zero => rfl
      | succ n => simp [listModify, ih]

theorem listModify_getD {β : Type} (l : List β) (i j : Nat) (f : β → β) (d : β)
    (hj : j < l.length) :
    (listModify l i f).getD j d = if j = i then f (l.getD j d) else l.getD j d := by
  induction l generalizing i j with
  | nil => simp at hj
  | cons b rest ih =>
      cases i with
      | zero =>
          cases j with
          | zero => simp [listModify]
          | succ m => simp [listModify]
      | succ n =>
          cases j with
          | zero => simp [listModify]
          | succ m =>
              simp only [listModify, List.getD_cons_succ]
              rw [ih n m (by simpa using hj)]
              by_cases h : m = n
              · simp [h]
              · simp [h, fun hh => h (Nat.succ_injective hh)]

/-! ## Lemmas about Cluster::recalculate -/

/-- Folding `add_value` over a termlist accumulates, per term, the sum of
the added values. -/
theorem foldl_add_value_get_value (l : List Wdf) (g : Term → ℝ) (cent : PointType ℝ) (t : Term) :
    (l.foldl (fun ce w => ce.add_value w.term (g w.term)) cent).get_value t
      = cent.get_value t
        + ((l.filter (fun w => w.term == t)).map (fun w => g w.term)).sum := by
  induction l generalizing cent with
  | nil => simp
  | cons w rest ih =>
      rw [List.foldl_cons, ih]
      rw [PointType.add_value_get_value]
      by_cases h : w.term = t
      · subst h
        have hb : (w.term == w.term) = true := by simp
        simp only [List.filter_cons, hb, if_true, List.map_cons, List.sum_cons]
        ring
      · have hb : ¬ ((w.term == t) = true) := by simp [h]
        rw [List.filter_cons, if_neg hb]
        rw [if_neg (fun hh => h hh.symm)]
        ring

/-- With duplicate-free termlist terms, the per-term accumulated sum is the
single value for a present term and 0 for an absent one. -/
theorem filter_term_sum (l : List Wdf) (g : Term → ℝ) (t : Term)
    (hnd : (l.map Wdf.term).Nodup) :
    ((l.filter (fun w => w.term == t)).map (fun w => g w.term)).sum
      = if t ∈ l.map Wdf.term then g t else 0 := by
  induction l with
  | nil => simp
  | cons w rest ih =>
      rw [List.map_cons, List.nodup_cons] at hnd
      by_cases h : w.term = t
      · subst h
        have hb : (w.term == w.term) = true := by simp
        simp only [List.filter_cons, hb, if_true, List.map_cons, List.sum_cons]
        rw [ih hnd.2, if_neg hnd.1]
        simp
      · have hb : ¬ ((w.term == t) = true) := by simp [h]
        rw [List.filter_cons, if_neg hb]
        rw [ih hnd.2, List.map_cons]
        have hne : ¬ t = w.term := fun hh => h hh.symm
        by_cases hm : t ∈ rest.map Wdf.term
        · rw [if_pos hm, if_pos (List.mem_cons_of_mem _ hm)]
        · rw [if_neg hm, if_neg (by simp [hm, hne])]

/-- Well-formedness of a point as the specification states it: the termlist
terms are duplicate-free and every key of the weight map occurs among them.
Points built by `Point::initialize` from a duplicate-free document termlist,
and centroids built by `add_value`, satisfy it. -/
def wfPoint (p : Point ℝ) : Prop :=
  (p.pt.termlist.map Wdf.term).Nodup ∧ ∀ kv ∈ p.pt.values, kv.1 ∈ p.pt.termlist.map Wdf.term

instance (p : Point ℝ) : Decidable (wfPoint p) := by
  unfold wfPoint
  infer_instance

/-- For a well-formed point, iterating its termlist and summing
`get_value` of each entry term yields exactly `get_value t`. -/
theorem wfPoint_contribution (p : Point ℝ) (t : Term) (h : wfPoint p) :
    ((p.pt.termlist.filter (fun w => w.term == t)).map (fun w => p.pt.get_value w.term)).sum
      = p.pt.get_value t := by
  rw [filter_term_sum _ _ _ h.1]
  by_cases hm : t ∈ p.pt.termlist.map Wdf.term
  · rw [if_pos hm]
  · rw [if_neg hm]
    have hnone : mapFind p.pt.values t = none := by
      apply mapFind_eq_none_of_not_mem
      intro kv hkv hkt
      exact hm (hkt ▸ h.2 kv hkv)
    unfold PointType.get_value
    rw [hnone]

/-- The outer loop of `Cluster::recalculate` accumulates, per term, the sum
of the point values over all points of the cluster. -/
theorem recalculate_fold_get_value (ps : List (Point ℝ)) (cent : PointType ℝ) (t : Term)
    (h : ∀ p ∈ ps, wfPoint p) :
    (ps.foldl
        (fun cent p => p.pt.termlist.foldl
          (fun cent2 w => cent2.add_value w.term (p.pt.get_value w.term)) cent) cent).get_value t
      = cent.get_value t + (ps.map (fun p => p.pt.get_value t)).sum := by
  induction ps generalizing cent with
  | nil => simp
  | cons p rest ih =>
      rw [List.foldl_cons, ih _ (fun x hx => h x (List.mem_cons_of_mem _ hx))]
      rw [foldl_add_value_get_value, wfPoint_contribution p t (h p (List.mem_cons_self _ _))]
      simp [add_assoc]

/-- Dividing a point divides each `get_value` result. -/
theorem PointType.divide_get_value (p : PointType ℝ) (num : ℤ) (t : Term) :
    (p.divide num).get_value t = p.get_value t / (num : ℝ) := by
  unfold PointType.divide PointType.get_value
  simp only
  rw [mapFind_map_value (fun v => v / (num : ℝ)) p.values t]
  rcases mapFind p.values t with _ | v
  · simp
  · simp

@[simp] theorem PointType.divide_termlist (p : PointType ℝ) (num : ℤ) :
    (p.divide num).termlist = p.termlist := rfl

@[simp] theorem PointType.divide_magnitude (p : PointType ℝ) (num : ℤ) :
    (p.divide num).magnitude = p.magnitude := rfl

@[simp] theorem PointType.recalc_magnitude_values (p : PointType ℝ) :
    p.recalc_magnitude.values = p.values := rfl

theorem foldl_square_sum (l : List (Term × ℝ)) (a : ℝ) :
    l.foldl (fun acc kv => acc + kv.2 * kv.2) a = a + (l.map (fun kv => kv.2 * kv.2)).sum := by
  induction l generalizing a with
  | nil => simp
  | cons kv rest ih =>
      rw [List.foldl_cons, ih]
      simp [add_assoc]

theorem PointType.recalc_magnitude_eq (p : PointType ℝ) :
    p.recalc_magnitude.magnitude = (p.values.map (fun kv => kv.2 * kv.2)).sum := by
  unfold PointType.recalc_magnitude
  simp only
  rw [foldl_square_sum]
  ring

/-! ## PointTermIterator (cluster.cc lines 248-389) -/

/-- The iterator state: the distance of `i` from `begin`, the underlying
termlist, and the `started` flag (cluster.cc lines 248-256). -/
structure PointTermIterator where
  pos : Nat
  tl : List Wdf
  started : Bool
deriving DecidableEq, Repr

/-- A freshly constructed iterator: `i = begin`, `started = false`
(cluster.cc lines 254-256). -/
def PointTermIterator.fresh (tl : List Wdf) : PointTermIterator :=
  ⟨0, tl, false⟩

/-- `PointTermIterator::next`: the first call only sets `started`; later
calls advance `i` (cluster.cc lines 365-373).  Valid use never calls it
once `at_end` holds, so the unconditional increment is faithful. -/
def PointTermIterator.next (s : PointTermIterator) : PointTermIterator :=
  if !s.started then { s with started := true } else { s with pos := s.pos + 1 }

/-- `PointTermIterator::at_end`: false until `started`, then `i == end`
(cluster.cc lines 375-380). -/
def PointTermIterator.at_end (s : PointTermIterator) : Bool :=
  if !s.started then false else s.pos == s.tl.length

/-- `n` successive calls of `next`. -/
def PointTermIterator.iterate (s : PointTermIterator) : Nat → PointTermIterator
  | 0 => s
  | n + 1 => s.next.iterate n

/-! ## Operation sequences over a PointType (for the magnitude invariant) -/

/-- A `set_value` or `add_value` call with its arguments. -/
inductive PTOp where
  | set : Term → ℝ → PTOp
  | add : Term → ℝ → PTOp

/-- Apply one operation. -/
noncomputable def PointType.applyOp (p : PointType ℝ) : PTOp → PointType ℝ
  | PTOp.set t v => p.set_value t v
  | PTOp.add t v => p.add_value t v

/-- Apply a finite sequence of `set_value` and `add_value` calls. -/
noncomputable def PointType.applyOps (p : PointType ℝ) (ops : List PTOp) : PointType ℝ :=
  ops.foldl PointType.applyOp p

/-! ## CosineDistance (spec section 4.4) -/

/-- Modelled from the spec: `CosineDistance::similarity` is declared in
cluster.h but its definition (similarity.cc) is not part of the sources
under verification.  Spec section 4.4: the dot product iterates the smaller
of the two termlists and looks each term up in the other point; the norms
are the square roots of the cached magnitudes; when either magnitude is 0
the similarity is 0 to avoid NaN. -/
noncomputable def innerProduct (x y : PointType ℝ) : ℝ :=
  x.termlist.foldl (fun s w => s + x.get_value w.term * y.get_value w.term) 0

/-- Modelled from the spec: `CosineDistance::similarity(a, b)` returns
`(a dot b) / (|a| * |b|)`, and 0 whenever either cached magnitude is 0. -/
noncomputable def CosineDistance.similarity (a b : PointType ℝ) : ℝ :=
  if a.magnitude = 0 ∨ b.magnitude = 0 then 0
  else
    (if a.termlist_size ≤ b.termlist_size then innerProduct a b else innerProduct b a)
      / (Real.sqrt a.magnitude * Real.sqrt b.magnitude)

/-! ## RoundRobin (spec section 4.6)

The definition of `RoundRobin::cluster` is not among the sources under
verification (only its declaration and behaviour comment in cluster.h), so
the clusterer is modelled from the specification. -/

/-- An empty cluster as created for the output set. -/
def emptyClusterD : Cluster DReal :=
  ⟨⟨[], [], DReal.fin 0⟩, []⟩

/-- Modelled from the spec: the assignment loop of `RoundRobin::cluster`.
For the document at position `i` (counting from `n`), construct a `Point`
with the shared `TermListGroup` and append it to cluster `i mod k`. -/
noncomputable def assignRR (tlg : TermListGroup) (k : Nat) :
    List Document → Nat → ClusterSet DReal → ClusterSet DReal
  | [], _, cs => cs
  | d :: rest, i, cs =>
      assignRR tlg k rest (i + 1)
        (cs.add_to_cluster (Point.initializeDoc tlg d freshPoint) (i % k))

/-- Modelled from the spec: `RoundRobin::cluster(mset)` with `k` clusters
(spec section 4.6 and the cluster.h behaviour comment): create `k` empty
clusters, build a `TermListGroup` over the whole MSet, then send the
document at position `i` to cluster `i mod k`.  Centroids are left empty. -/
noncomputable def RoundRobin.cluster (k : Nat) (mset : List Document) : ClusterSet DReal :=
  assignRR (TermListGroup.ofDocs mset) k mset 0 ⟨List.replicate k emptyClusterD⟩

/-- The expected contents of cluster `j` for the documents `docs` starting
at position `n`. -/
noncomputable def rrExpected (tlg : TermListGroup) (k : Nat) :
    List Document → Nat → Nat → List (Point DReal)
  | [], _, _ => []
  | d :: rest, n, j =>
      (if n % k = j then [Point.initializeDoc tlg d freshPoint] else [])
        ++ rrExpected tlg k rest (n + 1) j

theorem assignRR_length (tlg : TermListGroup) (k : Nat) (docs : List Document)
    (n : Nat) (cs : ClusterSet DReal) :
    (assignRR tlg k docs n cs).clusters.length = cs.clusters.length := by
  induction docs generalizing n cs with
  | nil => rfl
  | cons d rest ih =>
      rw [assignRR, ih]
      simp [ClusterSet.add_to_cluster]

/-- The assignment loop appends, to each cluster `j`, exactly the points of
the documents whose position is congruent to `j` mod `k`, in order. -/
theorem assignRR_getD (tlg : TermListGroup) (k : Nat) (docs : List Document)
    (n : Nat) (cs : ClusterSet DReal) (j : Nat)
    (hk : 1 ≤ k) (hlen : k ≤ cs.clusters.length) (hj : j < cs.clusters.length) :
    ((assignRR tlg k docs n cs).clusters.getD j emptyClusterD).cluster_docs
      = (cs.clusters.getD j emptyClusterD).cluster_docs ++ rrExpected tlg k docs n j := by
  induction docs generalizing n cs with
  | nil => simp [assignRR, rrExpected]
  | cons d rest ih =>
      rw [assignRR, rrExpected]
      have hmod : n % k < cs.clusters.length :=
        Nat.lt_of_lt_of_le (Nat.mod_lt n hk) hlen
      have hlen2 : k ≤ (cs.add_to_cluster (Point.initializeDoc tlg d freshPoint) (n % k)).clusters.length := by
        simp [ClusterSet.add_to_cluster, hlen]
      have hj2 : j < (cs.add_to_cluster (Point.initializeDoc tlg d freshPoint) (n % k)).clusters.length := by
        simp [ClusterSet.add_to_cluster, hj]
      rw [ih (n + 1) _ hlen2 hj2]
      have hget : ((cs.add_to_cluster (Point.initializeDoc tlg d freshPoint) (n % k)).clusters.getD j
          emptyClusterD).cluster_docs
          = (cs.clusters.getD j emptyClusterD).cluster_docs
            ++ (if n % k = j then [Point.initializeDoc tlg d freshPoint] else []) := by
        unfold ClusterSet.add_to_cluster
        simp only
        rw [listModify_getD _ _ _ _ _ hj]
        by_cases hcase : j = n % k
        · rw [if_pos hcase, if_pos hcase.symm]
          simp [Cluster.add_cluster]
        · rw [if_neg hcase, if_neg (fun hh => hcase hh.symm)]
          simp
      rw [hget, List.append_assoc]

/-- Membership of a document in the expected contents of cluster `j`:
exactly the documents at positions congruent to `j`. -/
theorem rrExpected_mem (tlg : TermListGroup) (k : Nat) (docs : List Document)
    (n j : Nat) (d0 : Document) :
    d0 ∈ (rrExpected tlg k docs n j).map Point.doc
      ↔ ∃ m, ∃ hm : m < docs.length, (n + m) % k = j ∧ docs.get ⟨m, hm⟩ = d0 := by
  induction docs generalizing n with
  | nil =>
      simp [rrExpected]
  | cons d rest ih =>
      rw [rrExpected]
      constructor
      · intro hmem
        rw [List.map_append, List.mem_append] at hmem
        rcases hmem with hmem | hmem
        · by_cases hcase : n % k = j
          · rw [if_pos hcase] at hmem
            simp only [List.map_cons, List.map_nil, List.mem_singleton] at hmem
            refine ⟨0, by simp, by simpa using hcase, ?_⟩
            have hdoc : (Point.initializeDoc tlg d freshPoint).doc = d := by
              unfold Point.initializeDoc
              rw [initFold_doc]
            rw [hmem, hdoc]
            simp
          · rw [if_neg hcase] at hmem
            simp at hmem
        · rcases (ih (n + 1)).mp hmem with ⟨m, hm, hcong, hgot⟩
          refine ⟨m + 1, by simpa using Nat.succ_lt_succ hm, ?_, ?_⟩
          · have : n + (m + 1) = (n + 1) + m := by omega
            rw [this]
            exact hcong
          · simpa using hgot
      · rintro ⟨m, hm, hcong, hgot⟩
        rw [List.map_append, List.mem_append]
        cases m with
        | zero =>
            left
            have hcase : n % k = j := by simpa using hcong
            rw [if_pos hcase]
            have hdoc : (Point.initializeDoc tlg d freshPoint).doc = d := by
              unfold Point.initializeDoc
              rw [initFold_doc]
            simp only [List.map_cons, List.map_nil, List.mem_singleton, hdoc]
            simpa using hgot.symm
        | succ m =>
            right
            refine (ih (n + 1)).mpr ⟨m, by simpa using Nat.lt_of_succ_lt_succ hm, ?_, ?_⟩
            · have : (n + 1) + m = n + (m + 1) := by omega
              rw [this]
              exact hcong
            · simpa using hgot

/-! ## Finiteness of Point::initialize results when every frequency is positive -/

theorem clamp_eq_max (w : Nat) : (if w < 1 then 1 else w) = max w 1 := by
  rcases Nat.eq_zero_or_pos w with h | h
  · simp [h]
  · have h1 : ¬ w < 1 := by omega
    have h2 : max w 1 = w := by omega
    simp [h1, h2]

theorem mapInsert_mem {α : Type} (m : List (Term × α)) (t : Term) (v : α)
    (kv : Term × α) (h : kv ∈ mapInsert m t v) : kv = (t, v) ∨ kv ∈ m := by
  induction m with
  | nil =>
      simp [mapInsert] at h
      exact Or.inl h
  | cons kw rest ih =>
      unfold mapInsert at h
      by_cases hk : kw.1 = t
      · rw [if_pos hk] at h
        rcases List.mem_cons.mp h with h | h
        · exact Or.inl h
        · exact Or.inr (List.mem_cons_of_mem _ h)
      · rw [if_neg hk] at h
        rcases List.mem_cons.mp h with h | h
        · exact Or.inr (h ▸ List.mem_cons_self _ _)
        · rcases ih h with h | h
          · exact Or.inl h
          · exact Or.inr (List.mem_cons_of_mem _ h)

theorem DReal.isFinite_iff (d : DReal) : d.isFinite = true ↔ ∃ x, d = DReal.fin x := by
  cases d with
  | fin x => simp [DReal.isFinite]
  | posInf => simp [DReal.isFinite]
  | negInf => simp [DReal.isFinite]
  | nan => simp [DReal.isFinite]

/-- When the document count and every encountered frequency are at least 1,
the loop keeps all stored weights and the magnitude finite. -/
theorem initFold_allFinite (tlg : TermListGroup) (terms : List Wdf) (q : Point DReal)
    (hN : 1 ≤ tlg.get_doccount)
    (hdf : ∀ e ∈ terms, 1 ≤ tlg.get_termfreq e.term)
    (hqv : ∀ kv ∈ q.pt.values, kv.2.isFinite = true)
    (hqm : q.pt.magnitude.isFinite = true) :
    (∀ kv ∈ (terms.foldl (initStep tlg) q).pt.values, kv.2.isFinite = true)
      ∧ (terms.foldl (initStep tlg) q).pt.magnitude.isFinite = true := by
  induction terms generalizing q with
  | nil => exact ⟨hqv, hqm⟩
  | cons e rest ih =>
      rw [List.foldl_cons]
      have hwt := initStep_weight_fin tlg e hN (hdf e (List.mem_cons_self _ _))
      obtain ⟨m, hm⟩ := (DReal.isFinite_iff _).mp hqm
      refine ih (initStep tlg q e) (fun x hx => hdf x (List.mem_cons_of_mem _ hx)) ?_ ?_
      · intro kv hkv
        unfold initStep at hkv
        simp only at hkv
        rcases mapInsert_mem _ _ _ kv hkv with h | h
        · rw [h]
          simp only
          rw [hwt]
          rfl
        · exact hqv kv h
      · unfold initStep
        simp only
        rw [hwt, hm, DReal.mul_fin_fin, DReal.add_fin_fin]
        rfl

/-- `get_value` of a point whose stored weights are all finite is finite. -/
theorem get_value_isFinite_of_allFinite (p : PointType DReal)
    (h : ∀ kv ∈ p.values, kv.2.isFinite = true) (t : Term) :
    (p.get_value t).isFinite = true := by
  unfold PointType.get_value
  rcases hfind : mapFind p.values t with _ | v
  · rfl
  · obtain ⟨kv, hkv, hv⟩ := mapFind_mem _ _ _ hfind
    rw [← hv]
    exact h kv hkv

/-! ## Claim theorems -/

/-- A `PointType` as freshly constructed (the constructor zeroes the
magnitude; `points.h`). -/
def emptyPointR : PointType ℝ :=
  ⟨[], [], 0⟩

/-- C1 counterexample: a single `set_value("a", 2)` on a fresh `PointType`
leaves the cached magnitude at 0 while the sum of squared stored values is
4, so `get_magnitude()` does not equal the sum of `get_value(t)^2` over the
stored terms after this one-operation sequence. -/
theorem C1_counterexample :
    (emptyPointR.applyOps [PTOp.set "a" 2]).get_magnitude
      ≠ (emptyPointR.applyOps [PTOp.set "a" 2]).storedSquareSum := by
  have h1 : emptyPointR.applyOps [PTOp.set "a" 2]
      = ⟨[("a", (2 : ℝ))], [], 0⟩ := rfl
  rw [h1]
  unfold PointType.get_magnitude PointType.storedSquareSum PointType.get_value
  norm_num [mapFind]

/-- C1 (amended): `set_value` and `add_value` never touch the cached
magnitude, so after any finite sequence of such calls `get_magnitude()`
returns exactly its value from before the sequence; the squared-sum
invariant is not maintained by these operations (it is restored only by
`recalc_magnitude`). -/
theorem C1_magnitude_untouched (p : PointType ℝ) (ops : List PTOp) :
    (p.applyOps ops).get_magnitude = p.get_magnitude := by
  induction ops generalizing p with
  | nil => rfl
  | cons op rest ih =>
      unfold PointType.applyOps at ih ⊢
      rw [List.foldl_cons, ih]
      cases op with
      | set t v => rfl
      | add t v =>
          unfold PointType.get_magnitude PointType.applyOp
          rw [PointType.add_value_magnitude]

/-- A concrete centroid state with nonzero cached magnitude. -/
def centC5 : PointType ℝ :=
  ⟨[("a", 2)], [⟨"a", 1⟩], 4⟩

/-- C5 counterexample: `Centroid::clear` does not reset the magnitude
field, so after `clear()` on a centroid whose cached magnitude is 4,
`get_magnitude()` still returns 4, not 0 as the claim states. -/
theorem C5_counterexample :
    centC5.clear.values = [] ∧ centC5.clear.termlist = []
      ∧ centC5.clear.get_magnitude ≠ 0 := by
  refine ⟨rfl, rfl, ?_⟩
  unfold PointType.clear PointType.get_magnitude centC5
  norm_num

/-- C5 (amended): after `Centroid::clear` the weight map and the termlist
are empty (hence `get_value` returns 0.0 for every term), but the cached
magnitude keeps the value it had before the call. -/
theorem C5_clear_characterization (c : PointType ℝ) :
    c.clear.values = [] ∧ c.clear.termlist = []
      ∧ c.clear.get_magnitude = c.get_magnitude
      ∧ ∀ t, c.clear.get_value t = 0 := by
  refine ⟨rfl, rfl, rfl, ?_⟩
  intro t
  unfold PointType.clear PointType.get_value
  simp

/-- C6: `Centroid::divide(n)` with `n /= 0` divides every stored weight by
`n` (so `get_value` is divided pointwise and the key set is unchanged) and
changes nothing else: the termlist and the cached magnitude keep their
previous values; the magnitude is not recomputed. -/
theorem C6_divide_characterization (c : PointType ℝ) (num : ℤ) (_hnum : num ≠ 0) :
    (c.divide num).values.map Prod.fst = c.values.map Prod.fst
      ∧ (∀ t, (c.divide num).get_value t = c.get_value t / (num : ℝ))
      ∧ (c.divide num).termlist = c.termlist
      ∧ (c.divide num).get_magnitude = c.get_magnitude := by
  refine ⟨?_, fun t => PointType.divide_get_value c num t, rfl, rfl⟩
  unfold PointType.divide
  simp

/-- C6 witness: dividing the centroid `{a : 4}` by 2 halves the stored
weight and leaves termlist and magnitude alone. -/
theorem C6_witness :
    (2 : ℤ) ≠ 0
      ∧ ((⟨[("a", 4)], [⟨"a", 1⟩], 16⟩ : PointType ℝ).divide 2).get_value "a"
          = (⟨[("a", 4)], [⟨"a", 1⟩], 16⟩ : PointType ℝ).get_value "a" / ((2 : ℤ) : ℝ)
      ∧ ((⟨[("a", 4)], [⟨"a", 1⟩], 16⟩ : PointType ℝ).divide 2).get_magnitude
          = (⟨[("a", 4)], [⟨"a", 1⟩], 16⟩ : PointType ℝ).get_magnitude := by
  refine ⟨by decide, ?_, ?_⟩
  · exact (C6_divide_characterization ⟨[("a", 4)], [⟨"a", 1⟩], 16⟩ 2 (by decide)).2.1 "a"
  · exact (C6_divide_characterization ⟨[("a", 4)], [⟨"a", 1⟩], 16⟩ 2 (by decide)).2.2.2

/-- C7: `ClusterSet::clear_clusters` empties the point list of every
cluster while every centroid is kept exactly as it was. -/
theorem C7_clear_clusters (W : Type) (cs : ClusterSet W) :
    (cs.clear_clusters).clusters.map Cluster.cluster_docs
        = List.replicate cs.clusters.length []
      ∧ (cs.clear_clusters).clusters.map Cluster.centroid
        = cs.clusters.map Cluster.centroid := by
  constructor
  · unfold ClusterSet.clear_clusters
    simp only [List.map_map]
    induction cs.clusters with
    | nil => rfl
    | cons c rest ih => simp [Cluster.clear, ih, List.replicate_succ]
  · unfold ClusterSet.clear_clusters
    simp only [List.map_map]
    induction cs.clusters with
    | nil => rfl
    | cons c rest ih => simp [Cluster.clear, ih]

/-- C4: after `Cluster::recalculate` on a nonempty cluster of well-formed
points, every centroid weight is the mean over the cluster points of
`get_value(t)` (for all terms, hence in particular for the terms present in
the centroid), and the centroid magnitude is recomputed as the sum of
squares of its stored weights. -/
theorem C4_recalculate_mean (c : Cluster ℝ) (_hpos : 0 < c.size)
    (hwf : ∀ p ∈ c.cluster_docs, wfPoint p) :
    (∀ t, c.recalculate.centroid.get_value t
        = (c.cluster_docs.map (fun p => p.pt.get_value t)).sum / (c.size : ℝ))
      ∧ c.recalculate.centroid.get_magnitude
        = (c.recalculate.centroid.values.map (fun kv => kv.2 * kv.2)).sum := by
  constructor
  · intro t
    unfold Cluster.recalculate
    simp only
    have hrc : ∀ q : PointType ℝ, q.recalc_magnitude.get_value t = q.get_value t := fun q => rfl
    rw [hrc, PointType.divide_get_value, recalculate_fold_get_value _ _ _ hwf]
    have hcleared : (c.centroid.clear).get_value t = 0 := by
      unfold PointType.clear PointType.get_value
      simp
    rw [hcleared, zero_add]
    norm_num
  · unfold Cluster.recalculate
    simp only
    rw [PointType.get_magnitude_eq, PointType.recalc_magnitude_eq, PointType.recalc_magnitude_values]

/-- A one-point cluster used to instantiate C4. -/
def clusterC4 : Cluster ℝ :=
  ⟨⟨[("old", 7)], [⟨"old", 3⟩], 49⟩, [⟨⟨[("x", 2)], [⟨"x", 1⟩], 4⟩, ⟨5, [⟨"x", 1⟩]⟩⟩]⟩

/-- C4 witness: recalculating the one-point cluster above gives centroid
weight `2 / 1` at term `x` and a recomputed magnitude. -/
theorem C4_witness :
    (0 < clusterC4.size)
      ∧ clusterC4.recalculate.centroid.get_value "x"
          = (clusterC4.cluster_docs.map (fun p => p.pt.get_value "x")).sum / (clusterC4.size : ℝ)
      ∧ clusterC4.recalculate.centroid.get_magnitude
          = (clusterC4.recalculate.centroid.values.map (fun kv => kv.2 * kv.2)).sum := by
  refine ⟨by decide, ?_, ?_⟩
  · exact (C4_recalculate_mean clusterC4 (by decide) (by decide)).1 "x"
  · exact (C4_recalculate_mean clusterC4 (by decide) (by decide)).2

/-- C2 (amended): `Point::initialize` on a fresh point over a
duplicate-free document termlist, with positive document count and positive
document frequencies, stores for each document entry the weight
`(1 + ln(max(wdf,1))) * ln(N / termfreq(term))` in the weight map,
appends `(term, max(wdf,1))` to the termlist (not `(term, 1)`), and
accumulates the squared weights into the magnitude. -/
theorem C2_tfidf_characterization (tlg : TermListGroup) (doc_ : Document)
    (hN : 1 ≤ tlg.get_doccount)
    (hdf : ∀ e ∈ doc_.terms, 1 ≤ tlg.get_termfreq e.term)
    (hnd : (doc_.terms.map Wdf.term).Nodup) :
    (Point.initializeDoc tlg doc_ freshPoint).pt.termlist
        = doc_.terms.map (fun e => ⟨e.term, max e.wdf 1⟩)
      ∧ (∀ e ∈ doc_.terms,
          (Point.initializeDoc tlg doc_ freshPoint).pt.get_value e.term
            = DReal.fin (specWeight tlg e))
      ∧ (Point.initializeDoc tlg doc_ freshPoint).pt.get_magnitude
        = DReal.fin ((doc_.terms.map (fun e => specWeight tlg e * specWeight tlg e)).sum) := by
  refine ⟨?_, ?_, ?_⟩
  · unfold Point.initializeDoc
    rw [initFold_termlist]
    have hfun : (fun e : Wdf => (⟨e.term, if e.wdf < 1 then 1 else e.wdf⟩ : Wdf))
        = fun e : Wdf => ⟨e.term, max e.wdf 1⟩ := by
      funext e
      rw [clamp_eq_max]
    rw [hfun]
    rfl
  · intro e he
    unfold Point.initializeDoc PointType.get_value
    rw [initFold_values tlg doc_.terms _ hnd hN hdf e he]
  · unfold Point.initializeDoc PointType.get_magnitude
    rw [initFold_magnitude tlg doc_.terms _ 0 rfl hN hdf, zero_add]

/-- Inputs for the C2 witness: two documents were scanned and the term `a`
occurs in one of them; the witness document carries `a` with wdf 3. -/
def tlgW : TermListGroup := ⟨[("a", 1)], 2⟩

def docW : Document := ⟨1, [⟨"a", 3⟩]⟩

/-- C2 witness: at the concrete inputs above, the termlist keeps the
clamped wdf 3 and the stored weight is the specification weight. -/
theorem C2_witness :
    1 ≤ tlgW.get_doccount
      ∧ (Point.initializeDoc tlgW docW freshPoint).pt.termlist = [⟨"a", 3⟩]
      ∧ (Point.initializeDoc tlgW docW freshPoint).pt.get_value "a"
          = DReal.fin (specWeight tlgW ⟨"a", 3⟩) := by
  refine ⟨by decide, ?_, ?_⟩
  · have h := (C2_tfidf_characterization tlgW docW (by decide)
      (by intro e he; simp [docW] at he; subst he; decide) (by decide)).1
    rw [h]
    rfl
  · exact (C2_tfidf_characterization tlgW docW (by decide)
      (by intro e he; simp [docW] at he; subst he; decide) (by decide)).2.1
      ⟨"a", 3⟩ (by simp [docW])

/-- Inputs for the C2 counterexample: the document carries term `a` with
wdf 2, so the source pushes `(a, 2)` on the termlist. -/
def tlgC2 : TermListGroup := ⟨[("a", 1)], 1⟩

def docC2 : Document := ⟨0, [⟨"a", 2⟩]⟩

/-- C2 counterexample: the claim says `(term, 1)` is appended to the
termlist, but `Point::initialize` pushes the (clamped) wdf itself:
the resulting termlist is `[(a, 2)]`, not `[(a, 1)]`. -/
theorem C2_counterexample :
    (Point.initializeDoc tlgC2 docC2 freshPoint).pt.termlist = [⟨"a", 2⟩]
      ∧ (Point.initializeDoc tlgC2 docC2 freshPoint).pt.termlist ≠ [⟨"a", 1⟩] := by
  have h : (Point.initializeDoc tlgC2 docC2 freshPoint).pt.termlist = [⟨"a", 2⟩] := by
    unfold Point.initializeDoc
    rw [initFold_termlist]
    rfl
  refine ⟨h, ?_⟩
  rw [h]
  decide

/-- C3 (amended): the zero-magnitude guard holds for cosine similarity (as
modelled from the spec, the implementation not being among these sources):
with a zero-magnitude operand the similarity is exactly 0.  For
`Point::initialize`, however, the source has no `df == 0` guard; its
results are guaranteed finite only when the document count and every
encountered document frequency are at least 1 (the counterexample shows an
infinite magnitude at `df == 0`). -/
theorem C3_zero_policy :
    (∀ a b : PointType ℝ, a.magnitude = 0 ∨ b.magnitude = 0 →
        CosineDistance.similarity a b = 0)
      ∧ (∀ (tlg : TermListGroup) (doc_ : Document),
          1 ≤ tlg.get_doccount →
          (∀ e ∈ doc_.terms, 1 ≤ tlg.get_termfreq e.term) →
          (Point.initializeDoc tlg doc_ freshPoint).pt.get_magnitude.isFinite = true
            ∧ ∀ t, ((Point.initializeDoc tlg doc_ freshPoint).pt.get_value t).isFinite = true) := by
  constructor
  · intro a b h
    unfold CosineDistance.similarity
    rw [if_pos h]
  · intro tlg doc_ hN hdf
    have hall := initFold_allFinite tlg doc_.terms { freshPoint with doc := doc_ } hN hdf
      (by intro kv hkv; simp [freshPoint] at hkv) rfl
    exact ⟨hall.2, fun t => get_value_isFinite_of_allFinite _ hall.1 t⟩

/-- A point with zero cached magnitude for the C3 witness. -/
def ptZero : PointType ℝ := ⟨[], [], 0⟩

/-- C3 witness: similarity with a zero-magnitude operand is 0, and at the
all-positive-frequency inputs of the C2 witness the initialized magnitude
is finite. -/
theorem C3_witness :
    CosineDistance.similarity ptZero ptZero = 0
      ∧ (Point.initializeDoc tlgW docW freshPoint).pt.get_magnitude.isFinite = true := by
  constructor
  · exact C3_zero_policy.1 ptZero ptZero (Or.inl rfl)
  · exact (C3_zero_policy.2 tlgW docW (by decide)
      (by intro e he; simp [docW] at he; subst he; decide)).1

/-- Inputs for the C3 counterexample: one document was counted but the
termfreq map is empty, so `get_termfreq` returns 0 for the document term. -/
def tlgC3 : TermListGroup := ⟨[], 1⟩

def docC3 : Document := ⟨0, [⟨"a", 1⟩]⟩

/-- C3 counterexample: with document frequency 0 the source computes
`log(1/0) = +inf` and the weight `1 * inf = inf`, so `get_magnitude()`
returns positive infinity to the caller rather than substituting 0. -/
theorem C3_counterexample :
    (Point.initializeDoc tlgC3 docC3 freshPoint).pt.get_magnitude = DReal.posInf := by
  have hstep : Point.initializeDoc tlgC3 docC3 freshPoint
      = initStep tlgC3 { freshPoint with doc := docC3 } ⟨"a", 1⟩ := rfl
  rw [hstep]
  unfold initStep PointType.get_magnitude
  simp only
  have hfreq : tlgC3.get_termfreq "a" = 0 := rfl
  have hcount : tlgC3.get_doccount = 1 := rfl
  rw [hfreq, hcount]
  have hclamp : ((if (1 : Nat) < 1 then 1 else 1 : Nat) : ℝ) = (1 : ℝ) := by norm_num
  rw [hclamp]
  have htf : DReal.add (DReal.fin 1) (DReal.log (DReal.fin (1 : ℝ)))
      = DReal.fin (1 + Real.log 1) := by
    rw [DReal.log_fin_of_pos one_pos, DReal.add_fin_fin]
  have hdiv : DReal.div (DReal.fin ((1 : Nat) : ℝ)) (DReal.fin ((0 : Nat) : ℝ))
      = DReal.posInf := by
    rw [Nat.cast_one, Nat.cast_zero]
    exact DReal.div_fin_zero_of_pos one_pos
  rw [Nat.cast_one, Nat.cast_zero] at *
  rw [htf]
  have hdiv2 : DReal.div (DReal.fin (1 : ℝ)) (DReal.fin (0 : ℝ)) = DReal.posInf :=
    DReal.div_fin_zero_of_pos one_pos
  rw [hdiv2, DReal.log_posInf]
  have htfpos : (0 : ℝ) < 1 + Real.log 1 := by
    rw [Real.log_one]
    norm_num
  rw [DReal.mul_fin_posInf_of_pos htfpos, DReal.mul_posInf_posInf]
  have hmagfin : freshPoint.pt.magnitude = DReal.fin 0 := rfl
  rw [hmagfin, DReal.add_fin_posInf]

/-- C8: `get_cluster(i)` and `cluster_size(i)` throw the range error
exactly when `i >= size()`; for `i < size()` they return the cluster at
index `i` (respectively its size).  Both are observers: in this functional
model they return no modified `ClusterSet`, matching the source methods,
which only read `clusters`. -/
theorem C8_get_cluster_range (W : Type) (cs : ClusterSet W) (cid : Nat) :
    ((cs.get_cluster cid = Except.error ClusterError.rangeError) ↔ cs.size ≤ cid)
      ∧ ((cs.cluster_size cid = Except.error ClusterError.rangeError) ↔ cs.size ≤ cid)
      ∧ (∀ h : cid < cs.size, cs.get_cluster cid = Except.ok (cs.clusters.get ⟨cid, h⟩))
      ∧ (∀ h : cid < cs.size, cs.cluster_size cid
            = Except.ok (cs.clusters.get ⟨cid, h⟩).size) := by
  unfold ClusterSet.get_cluster ClusterSet.cluster_size ClusterSet.size
  by_cases h : cs.clusters.length ≤ cid
  · rw [dif_pos h, dif_pos h]
    refine ⟨by simp [h], by simp [h], ?_, ?_⟩
    · intro hlt
      exact absurd hlt (not_lt.mpr h)
    · intro hlt
      exact absurd hlt (not_lt.mpr h)
  · rw [dif_neg h, dif_neg h]
    refine ⟨by simp [h], by simp [h], ?_, ?_⟩
    · intro hlt
      rfl
    · intro hlt
      rfl

/-- A one-cluster set for the C8 witness. -/
def csC8 : ClusterSet ℝ := ⟨[⟨emptyPointR, []⟩]⟩

/-- C8 witness: index 1 is out of range for a one-cluster set and throws;
index 0 returns the stored cluster. -/
theorem C8_witness :
    (csC8.get_cluster 1 = Except.error ClusterError.rangeError)
      ∧ csC8.get_cluster 0 = Except.ok (csC8.clusters.get ⟨0, by decide⟩) := by
  constructor
  · exact (C8_get_cluster_range ℝ csC8 1).1.mpr (by decide)
  · exact (C8_get_cluster_range ℝ csC8 0).2.2.1 (by decide)

/-- C10: a freshly constructed `PointTermIterator` reports `at_end() =
false` whatever the underlying termlist (the empty one included), and
`at_end()` can be true only after at least one `next()` call. -/
theorem C10_iterator_at_end :
    (∀ tl, (PointTermIterator.fresh tl).at_end = false)
      ∧ (∀ tl n, ((PointTermIterator.fresh tl).iterate n).at_end = true → 1 ≤ n) := by
  constructor
  · intro tl
    rfl
  · intro tl n h
    cases n with
    | zero =>
        simp only [PointTermIterator.iterate] at h
        simp [PointTermIterator.fresh, PointTermIterator.at_end] at h
    | succ m => omega

/-- C10 witness: on the empty termlist a single `next()` makes `at_end()`
true, and the theorem certifies that at least one call has then happened. -/
theorem C10_witness :
    ((PointTermIterator.fresh []).iterate 1).at_end = true ∧ 1 ≤ 1 := by
  have h : ((PointTermIterator.fresh []).iterate 1).at_end = true := by decide
  exact ⟨h, C10_iterator_at_end.2 [] 1 h⟩

theorem getD_replicate_self {β : Type} (k j : Nat) (d : β) :
    (List.replicate k d).getD j d = d := by
  induction k generalizing j with
  | zero => simp
  | succ n ih =>
      cases j with
      | zero => simp [List.replicate_succ]
      | succ m => simp [List.replicate_succ, ih]

/-- C9: for a nonempty MSet with pairwise distinct docids and `k >= 1`,
the document at MSet index `i` lands in cluster `i mod k` of
`RoundRobin(k).cluster(mset)` and in no other cluster (the clusterer being
modelled from the spec, its definition not being among these sources). -/
theorem C9_roundrobin_partition (k : Nat) (mset : List Document)
    (hk : 1 ≤ k) (_hne : mset ≠ [])
    (hnd : (mset.map Document.docid).Nodup)
    (i : Nat) (hi : i < mset.length) (j : Nat) (hj : j < k) :
    (mset.get ⟨i, hi⟩ ∈
        ((RoundRobin.cluster k mset).clusters.getD j emptyClusterD).cluster_docs.map Point.doc)
      ↔ j = i % k := by
  unfold RoundRobin.cluster
  rw [assignRR_getD _ _ _ _ _ _ hk (by simp) (by simp [hj])]
  have hrep : ((⟨List.replicate k emptyClusterD⟩ : ClusterSet DReal).clusters.getD j
      emptyClusterD).cluster_docs = [] := by
    simp only
    rw [getD_replicate_self]
    rfl
  rw [hrep, List.nil_append, rrExpected_mem]
  have hmnd : mset.Nodup := List.Nodup.of_map Document.docid hnd
  constructor
  · rintro ⟨m, hm, hcong, hgot⟩
    have hfin : (⟨m, hm⟩ : Fin mset.length) = ⟨i, hi⟩ :=
      (List.Nodup.get_inj_iff hmnd).mp hgot
    have hmi : m = i := by
      have := congrArg Fin.val hfin
      simpa using this
    subst hmi
    rw [Nat.zero_add] at hcong
    exact hcong.symm
  · intro hji
    refine ⟨i, hi, ?_, rfl⟩
    rw [Nat.zero_add]
    exact hji.symm

/-- Three documents with distinct docids for the C9 witness. -/
def msetC9 : List Document :=
  [⟨1, [⟨"a", 1⟩]⟩, ⟨2, [⟨"b", 1⟩]⟩, ⟨3, [⟨"a", 2⟩]⟩]

/-- C9 witness: with `k = 2`, the document at index 2 is in cluster
`2 mod 2 = 0` and the document at index 1 is not in cluster 0. -/
theorem C9_witness :
    ((msetC9.get ⟨2, by decide⟩ ∈
        ((RoundRobin.cluster 2 msetC9).clusters.getD 0 emptyClusterD).cluster_docs.map Point.doc)
      ↔ (0 = 2 % 2))
    ∧ ((msetC9.get ⟨1, by decide⟩ ∈
        ((RoundRobin.cluster 2 msetC9).clusters.getD 0 emptyClusterD).cluster_docs.map Point.doc)
      ↔ (0 = 1 % 2)) := by
  constructor
  · exact C9_roundrobin_partition 2 msetC9 (by decide) (by decide) (by decide) 2 (by decide)
      0 (by decide)
  · exact C9_roundrobin_partition 2 msetC9 (by decide) (by decide) (by decide) 1 (by decide)
      0 (by decide)
